import Mathlib

/-!
Shallow embedding of the AI-command pipeline of
`src/src/services/aiService.ts` (terminal-ai-assistant-windows).

Strings are modelled as Lean `String`s manipulated through their
character lists; the JavaScript string methods used by the source
(`trim`, `split`, `includes`, `replace`, `match`) are modelled by
explicit recursive functions on `List Char`.
-/

namespace AIService

/-- The whitespace class of JavaScript `trim` and `\s`: ASCII whitespace
(space, tab, LF, CR, VT, FF) plus NBSP and the byte-order mark.  The
remaining Unicode space separators never occur in the strings the
claims are about. -/
def jsIsSpace (c : Char) : Bool :=
  c == ' ' || c == '\t' || c == '\n' || c == '\r' ||
  c == Char.ofNat 11 || c == Char.ofNat 12 || c == Char.ofNat 160 || c == Char.ofNat 65279

/-- `String.prototype.trim` on the character list: drop whitespace from
both ends. -/
def jsTrimList (l : List Char) : List Char :=
  ((l.dropWhile jsIsSpace).reverse.dropWhile jsIsSpace).reverse

/-- `String.prototype.trim`. -/
def jsTrim (s : String) : String :=
  String.mk (jsTrimList s.data)

/-- ASCII lower-casing, as `toLowerCase` acts on the ASCII strings of
this code base. -/
def lcList (l : List Char) : List Char :=
  l.map Char.toLower

/-- `hay.includes(needle)` (substring containment): the needle is a
prefix of some suffix of the haystack. -/
def jsIncludes : List Char → List Char → Bool
  | [], needle => needle.isPrefixOf []
  | c :: rest, needle => needle.isPrefixOf (c :: rest) || jsIncludes rest needle

/-- `s.split(sep)` for a separator class given by a character predicate:
used for `split(/[&|]/)` and for `split(' ')` (single-character
separator), which keep empty pieces between adjacent separators. -/
def splitOnSep (p : Char → Bool) : List Char → List (List Char)
  | [] => [[]]
  | c :: rest =>
    match splitOnSep p rest with
    | [] => if p c then [[], []] else [[c]]
    | h :: t => if p c then [] :: h :: t else (c :: h) :: t

/-- `content.split(/\r?\n/)`: a separator is `\n` optionally preceded by
`\r`; a lone `\r` does not separate. -/
def splitLines : List Char → List (List Char)
  | [] => [[]]
  | '\r' :: '\n' :: rest => [] :: splitLines rest
  | '\n' :: rest => [] :: splitLines rest
  | c :: rest =>
    match splitLines rest with
    | [] => [[c]]
    | h :: t => (c :: h) :: t

/-- `AIError`: a tagged error with a message and a stable code. -/
structure AIError where
  message : String
  code : String
deriving DecidableEq

deriving instance DecidableEq for Except

/-- The code of an `Except AIError` outcome, `none` on success. -/
def errorCode {α : Type} : Except AIError α → Option String
  | .error e => some e.code
  | .ok _ => none

/-- The data model of the remote completion: the code only ever reads
`choices[0].message.content` (`OpenRouterResponse` in the source). -/
structure ChatMessage where
  content : String
deriving DecidableEq

structure Choice where
  message : ChatMessage
deriving DecidableEq

structure OpenRouterResponse where
  choices : List Choice
deriving DecidableEq

/-- The optional chain `data?.choices?.[0]?.message?.content`. -/
def firstContent (data : OpenRouterResponse) : Option String :=
  (data.choices.head?).map (fun choice => choice.message.content)

/-- `ADMIN_COMMANDS`, in source order. -/
def ADMIN_COMMANDS : List String :=
  ["netsh", "net", "sc", "reg", "bcdedit", "diskpart", "dism", "sfc",
   "format", "chkdsk", "taskkill", "rd /s", "rmdir /s", "del /f",
   "takeown", "icacls", "attrib", "runas"]

def MAX_RETRIES : Nat := 3
def RETRY_DELAY : Nat := 1000

/-- `removeCommandRepetitions`: trim, then collapse a string that is its
first half repeated twice. -/
def removeCommandRepetitions (command : String) : String :=
  let trimmedCommand := jsTrimList command.data
  if trimmedCommand.length % 2 ≠ 0 then
    String.mk trimmedCommand
  else
    let halfLength := trimmedCommand.length / 2
    let firstHalf := trimmedCommand.take halfLength
    let secondHalf := trimmedCommand.drop halfLength
    if firstHalf = secondHalf then String.mk firstHalf else String.mk trimmedCommand

/-- `validateResponse`: the response extractor.  The truthiness test
`!data?.choices?.[0]?.message?.content` fails both when the path is
absent and when the content is the empty string. -/
def validateResponse (data : OpenRouterResponse) : Except AIError String :=
  match firstContent data with
  | none => .error ⟨"Invalid or empty response from AI", "INVALID_RESPONSE"⟩
  | some raw =>
    if raw = "" then .error ⟨"Invalid or empty response from AI", "INVALID_RESPONSE"⟩
    else
      let content := jsTrimList raw.data
      if content = [] then .error ⟨"AI returned an empty command", "EMPTY_COMMAND"⟩
      else
        let lines := (splitLines content).map jsTrimList
        match lines.find? (fun line => line.length > 0) with
        | none => .error ⟨"No valid command found in AI response", "INVALID_RESPONSE"⟩
        | some firstValidLine => .ok (removeCommandRepetitions (String.mk firstValidLine))

/-- `requiresAdminPrivileges`: case-insensitive substring containment
against the denylist. -/
def requiresAdminPrivileges (command : String) : Bool :=
  let commandLower := lcList command.data
  ADMIN_COMMANDS.any (fun adminCmd => jsIncludes commandLower (lcList adminCmd.data))

/-- Whether a character is one of the `&`/`|` segment separators. -/
def isSegSep (c : Char) : Bool :=
  c == '&' || c == '|'

/-- Count of `(?<!>)>` matches: `>` characters not immediately preceded
by another `>` (`prev` is the character before the current position). -/
def countRedirAux (prev : Option Char) : List Char → Nat
  | [] => 0
  | c :: rest =>
    (if c = '>' ∧ prev ≠ some '>' then 1 else 0) + countRedirAux (some c) rest

/-- Redirection operators counted within one segment. -/
def countRedirections (segment : List Char) : Nat :=
  countRedirAux none segment

/-- `validateCommand`: the safety validator. -/
def validateCommand (command : String) : Except AIError Unit :=
  if command = "" then .error ⟨"Command is empty after cleaning", "EMPTY_COMMAND"⟩
  else if requiresAdminPrivileges command then
    .error ⟨"This command requires administrator privileges", "ADMIN_REQUIRED"⟩
  else
    let commandSegments := splitOnSep isSegSep command.data
    if commandSegments.any (fun segment => countRedirections segment > 1) then
      .error ⟨"Too many output redirections in a single command segment", "INVALID_REDIRECTION"⟩
    else
      .ok ()

/-- One outcome of `fetch`: a settled response (status, body text and
parsed JSON body), or a rejection carrying the error's `name` and
`message`.  A fired 30s timeout surfaces as a rejection named
`AbortError`. -/
inductive FetchOutcome where
  | resp (status : Nat) (text : String) (json : OpenRouterResponse)
  | reject (name : String) (message : String)

/-- One loop iteration of `fetchWithRetry` up to the `catch`: a non-2xx
status throws `AIError` (whose `name` is `AIError`), a rejection is
rethrown as caught. -/
def attemptResult : FetchOutcome → Except (String × String) OpenRouterResponse
  | .resp status text json =>
    if 200 ≤ status ∧ status < 300 then .ok json
    else .error ("AIError", "API returned " ++ toString status ++ ": " ++ text)
  | .reject name message => .error (name, message)

/-- The retry loop of `fetchWithRetry` over the remaining attempt
numbers, carrying `lastError`'s message.  Returns the number of
attempts made, the backoff delays awaited (`RETRY_DELAY * attempt`
each), and the result. -/
def retryGo (outcomes : Nat → FetchOutcome) :
    List Nat → String → Nat × List Nat × Except AIError OpenRouterResponse
  | [], lastMsg =>
    (0, [], .error ⟨"Failed after 3 attempts: " ++ lastMsg, "MAX_RETRIES_EXCEEDED"⟩)
  | attempt :: restAttempts, _ =>
    match attemptResult (outcomes attempt) with
    | .ok json => (1, [], .ok json)
    | .error (name, message) =>
      if name = "AbortError" then
        (1, [], .error ⟨"Request timed out", "TIMEOUT"⟩)
      else if restAttempts = [] then
        (1, [], .error ⟨"Failed after 3 attempts: " ++ message, "MAX_RETRIES_EXCEEDED"⟩)
      else
        let r := retryGo outcomes restAttempts message
        (r.1 + 1, (RETRY_DELAY * attempt) :: r.2.1, r.2.2)

/-- `fetchWithRetry`: attempts numbered 1 to `MAX_RETRIES`. -/
def fetchWithRetry (outcomes : Nat → FetchOutcome) :
    Nat × List Nat × Except AIError OpenRouterResponse :=
  retryGo outcomes [1, 2, 3] ""

/-- `generateCommand`, parametrised by the per-attempt behaviour of the
remote call.  Returns the number of network attempts performed together
with the command (or tagged error).  Note the pipeline: extraction and
repetition collapse (`validateResponse`), then `validateCommand`;
`cleanCommand` is not invoked. -/
def generateCommand (userInput : String) (outcomes : Nat → FetchOutcome) :
    Nat × Except AIError String :=
  if jsTrimList userInput.data = [] then
    (0, .error ⟨"User input is required", "INVALID_INPUT"⟩)
  else
    let r := fetchWithRetry outcomes
    match r.2.2 with
    | .error e => (r.1, .error e)
    | .ok data =>
      match validateResponse data with
      | .error e => (r.1, .error e)
      | .ok command =>
        match validateCommand command with
        | .error e => (r.1, .error e)
        | .ok _ => (r.1, .ok command)

/-! ### The command normalizer `cleanCommand`

Defined in `aiService.ts` but never invoked by `generateCommand`. -/

/-- The `[a-zA-Z]` character class. -/
def isAsciiLetter (c : Char) : Bool :=
  ('a' ≤ c && c ≤ 'z') || ('A' ≤ c && c ≤ 'Z')

/-- The `[a-zA-Z0-9]` character class. -/
def isAsciiAlnum (c : Char) : Bool :=
  isAsciiLetter c || ('0' ≤ c && c ≤ '9')

/-- Whether a string starts with an alphanumeric character. -/
def startsAlnum (s : String) : Bool :=
  match s.data with
  | [] => false
  | c :: _ => isAsciiAlnum c

/-- The placeholder `__URL<k>__`. -/
def urlPlaceholder (k : Nat) : List Char :=
  ("__URL" ++ Nat.repr k ++ "__").data

/-- One attempted match of `https?:\/\/[^\s]+` at the current position:
the scheme (with the greedy optional `s`), then a nonempty run of
non-whitespace characters.  Returns the match and the remaining
input. -/
def tryUrlAt (l : List Char) : Option (List Char × List Char) :=
  if ("https://".data).isPrefixOf l then
    if (l.drop 8).takeWhile (fun c => !jsIsSpace c) = [] then none
    else some (l.take 8 ++ (l.drop 8).takeWhile (fun c => !jsIsSpace c),
      (l.drop 8).drop ((l.drop 8).takeWhile (fun c => !jsIsSpace c)).length)
  else if ("http://".data).isPrefixOf l then
    if (l.drop 7).takeWhile (fun c => !jsIsSpace c) = [] then none
    else some (l.take 7 ++ (l.drop 7).takeWhile (fun c => !jsIsSpace c),
      (l.drop 7).drop ((l.drop 7).takeWhile (fun c => !jsIsSpace c)).length)
  else none

/-- The global replace
`cleanedCommand.replace(/(https?:\/\/[^\s]+)/g, placeholder)`: scan
left to right, replace each URL match with `__URL<k>__`, collect the
matched URLs. -/
def urlExtract : List Char → Nat → List Char × List (List Char)
  | [], _ => ([], [])
  | c :: rest, k =>
    match h : tryUrlAt (c :: rest) with
    | some (url, remaining) =>
      let r := urlExtract remaining (k + 1)
      (urlPlaceholder k ++ r.1, url :: r.2)
    | none =>
      let r := urlExtract rest k
      (c :: r.1, r.2)
termination_by l _ => l.length
decreasing_by
  · unfold tryUrlAt at h
    split at h
    · rename_i hp
      have hp8 : 8 ≤ (c :: rest).length := by
        have hpre : ("https://".data) <+: (c :: rest) := by simpa using hp
        simpa using hpre.length_le
      split at h
      · exact absurd h (by simp)
      · simp only [Option.some.injEq, Prod.mk.injEq] at h
        have hrem :
            remaining = ((c :: rest).drop 8).drop
              (((c :: rest).drop 8).takeWhile (fun x => !jsIsSpace x)).length := h.2.symm
        subst hrem
        simp only [List.length_drop]
        omega
    · split at h
      · rename_i hp
        have hp7 : 7 ≤ (c :: rest).length := by
          have hpre : ("http://".data) <+: (c :: rest) := by simpa using hp
          simpa using hpre.length_le
        split at h
        · exact absurd h (by simp)
        · simp only [Option.some.injEq, Prod.mk.injEq] at h
          have hrem :
              remaining = ((c :: rest).drop 7).drop
                (((c :: rest).drop 7).takeWhile (fun x => !jsIsSpace x)).length := h.2.symm
          subst hrem
          simp only [List.length_drop]
          omega
      · exact absurd h (by simp)
  · simp

/-- The `commonCommands` table, looked up at the lower-cased first
word; `none` models an absent own property.  (JavaScript property
lookup would also find the inherited `Object.prototype` members for the
first words `constructor` and `__proto__` and then crash on
`.includes`; no theorem below touches those inputs.) -/
def knownCommandParams (firstWord : List Char) : Option (List (List Char)) :=
  if firstWord = "ipconfig".data then
    some (["/all", "/release", "/renew", "/flushdns"].map String.data)
  else if firstWord = "dir".data then
    some (["/a", "/b", "/s", "/w", "/p", "/o", "/ad"].map String.data)
  else if firstWord = "netstat".data then
    some (["-a", "-n", "-b", "-o"].map String.data)
  else if firstWord = "ping".data then
    some (["-t", "-a", "-n", "-l"].map String.data)
  else if firstWord = "curl".data then
    some (["-s", "-o", "-L", "-I", "-H"].map String.data)
  else none

/-- `cleanedCommand.match(/\/[a-zA-Z]+|-[a-zA-Z]+/g)`: the
non-overlapping flag-shaped tokens, each a `/` or `-` followed by a
maximal nonempty run of ASCII letters. -/
def flagMatches : List Char → List (List Char)
  | [] => []
  | c :: rest =>
    if c = '/' || c = '-' then
      let letters := rest.takeWhile isAsciiLetter
      if letters = [] then flagMatches rest
      else (c :: letters) :: flagMatches (rest.drop letters.length)
    else flagMatches rest
termination_by l => l.length
decreasing_by
  · simp
  · simp only [List.length_drop, List.length_cons]
    omega
  · simp

/-- `GetSubstitution` for a string-pattern `replace`: in the
replacement, `$$` is a dollar sign, `$&` the matched text, a dollar
followed by a backquote the text before the match, a dollar followed by
a quote the text after it; anything else is literal. -/
def dollarSub (matched before after : List Char) : List Char → List Char
  | [] => []
  | c :: rest =>
    if c = '$' then
      match rest with
      | [] => ['$']
      | d :: rest2 =>
        if d = '$' then '$' :: dollarSub matched before after rest2
        else if d = '&' then matched ++ dollarSub matched before after rest2
        else if d = Char.ofNat 96 then before ++ dollarSub matched before after rest2
        else if d = Char.ofNat 39 then after ++ dollarSub matched before after rest2
        else '$' :: d :: dollarSub matched before after rest2
    else c :: dollarSub matched before after rest

/-- `s.indexOf(pat)`. -/
def firstIndexOf : List Char → List Char → Option Nat
  | [], pat => if pat.isPrefixOf [] then some 0 else none
  | c :: rest, pat =>
    if pat.isPrefixOf (c :: rest) then some 0
    else (firstIndexOf rest pat).map (fun i => i + 1)

/-- `s.replace(pat, rep)` with a string pattern: rewrite the first
occurrence only, interpreting the substitution patterns in `rep`. -/
def jsReplaceFirst (s pat rep : List Char) : List Char :=
  match firstIndexOf s pat with
  | none => s
  | some i =>
    s.take i ++ dollarSub pat (s.take i) (s.drop (i + pat.length)) rep
      ++ s.drop (i + pat.length)

/-- `urls.forEach((url, index) => s = s.replace(placeholder, url))`. -/
def restoreUrls (s : List Char) (urls : List (List Char)) : List Char :=
  urls.enum.foldl (fun acc p => jsReplaceFirst acc (urlPlaceholder p.1) p.2) s

/-- The negative lookbehind of `/(?<!http:|https:)\/\//g`: whether the
text before the current position (kept reversed in `pre`) ends in
`http:` or `https:`. -/
def schemeBefore (pre : List Char) : Bool :=
  ("http:".data.reverse).isPrefixOf pre || ("https:".data.reverse).isPrefixOf pre

/-- The global replace `replace(/(?<!http:|https:)\/\//g, '\\')`: each
non-overlapping `//` not directly after a scheme prefix becomes one
backslash. -/
def fixSlashes (pre : List Char) : List Char → List Char
  | [] => []
  | c :: rest =>
    if c = '/' ∧ rest.head? = some '/' then
      if schemeBefore pre then c :: fixSlashes (c :: pre) rest
      else '\\' :: fixSlashes ('/' :: '/' :: pre) rest.tail
    else c :: fixSlashes (c :: pre) rest
termination_by l => l.length
decreasing_by
  · simp
  · simp only [List.length_tail, List.length_cons]
    omega
  · simp

/-- `parts.join(' ')` for a general separator. -/
def joinSep (sep : List Char) : List (List Char) → List Char
  | [] => []
  | [x] => x
  | x :: y :: rest => x ++ sep ++ joinSep sep (y :: rest)

/-- The final guard of `cleanCommand`: `/^[^a-zA-Z0-9]/.test` rejects a
nonempty result starting with a non-alphanumeric character. -/
def finishCommand (fixed : List Char) : Except AIError String :=
  match fixed.head? with
  | some c =>
    if ¬ isAsciiAlnum c then .error ⟨"Invalid command structure", "INVALID_COMMAND"⟩
    else .ok (String.mk fixed)
  | none => .ok (String.mk fixed)

/-- `cleanCommand`: trim, hide URLs behind placeholders, rebuild the
command (known commands keep only allow-listed flags, deduplicated in
first-seen order; unknown commands keep the tokens before the first
repetition of the base token), restore URLs, rewrite `//` path
separators, and reject a leading non-alphanumeric character. -/
def cleanCommand (command : String) : Except AIError String :=
  let trimmed := jsTrimList command.data
  let er := urlExtract trimmed 0
  let cleanedCommand := er.1
  let urls := er.2
  let parts := splitOnSep (fun c => c == ' ') cleanedCommand
  let firstWord := lcList (parts.headD [])
  let rebuilt :=
    match knownCommandParams firstWord with
    | some validParams =>
      let paramMatches := flagMatches cleanedCommand
      let params := paramMatches.foldl
        (fun acc param =>
          let lp := lcList param
          if validParams.contains lp ∧ ¬ acc.contains lp then acc ++ [lp] else acc) []
      firstWord ++ ' ' :: joinSep [' '] params
    | none =>
      let baseCommand := parts.headD []
      let parameters := (parts.drop 1).takeWhile (fun p => lcList p ≠ lcList baseCommand)
      baseCommand ++ (if parameters = [] then [] else ' ' :: joinSep [' '] parameters)
  finishCommand (fixSlashes [] (restoreUrls rebuilt urls))

/-! ### Specification-side definitions

Independent formulations of the properties the claims quantify over,
to be compared with the model above. -/

/-- A failed attempt that is not a timeout: a settled non-2xx response,
or a rejection whose error name is not `AbortError`. -/
def nonTimeoutFailure : FetchOutcome → Prop
  | .resp status _ _ => ¬(200 ≤ status ∧ status < 300)
  | .reject name _ => name ≠ "AbortError"

/-- A timed-out attempt: the abort rejection. -/
def timesOut : FetchOutcome → Prop
  | .resp _ _ _ => False
  | .reject name _ => name = "AbortError"

/-- The message of the error a failed attempt produces (the `AIError`
text for a non-2xx status, the rejection's own message otherwise). -/
def failureMessage : FetchOutcome → String
  | .resp status text _ => "API returned " ++ toString status ++ ": " ++ text
  | .reject _ message => message

/-- The error name of a failed attempt. -/
def failureName : FetchOutcome → String
  | .resp _ _ _ => "AIError"
  | .reject name _ => name

/-- Position-based count of `>` characters not immediately preceded by
another `>`: each character is paired with its predecessor (`none` at
the start). -/
def specRedirCount (segment : List Char) : Nat :=
  (((none :: segment.map some).zip segment).filter
    (fun p => p.2 == '>' && p.1 != some '>')).length

/-- First-seen deduplication, keeping the order of first occurrence. -/
def firstSeenDedup (l : List (List Char)) : List (List Char) :=
  l.foldl (fun acc x => if acc.contains x then acc else acc ++ [x]) []

/-- No two adjacent forward slashes anywhere in the list (the
path-separator rewrite is the identity on such strings). -/
def noDoubleSlash : List Char → Bool
  | [] => true
  | [_] => true
  | a :: b :: rest => !(a == '/' && b == '/') && noDoubleSlash (b :: rest)

/-- The completion `{"choices":[{"message":{"content":"dir /a /a\ndir /a /a"}}]}`. -/
def dirRepeatCompletion : OpenRouterResponse :=
  ⟨[⟨⟨"dir /a /a\ndir /a /a"⟩⟩]⟩

/-- A remote call that succeeds with `dirRepeatCompletion` on every
attempt. -/
def dirRepeatOutcome : Nat → FetchOutcome :=
  fun _ => .resp 200 "" dirRepeatCompletion

/-- A completion whose command starts with a double quote. -/
def quotedHelloCompletion : OpenRouterResponse :=
  ⟨[⟨⟨"\"hello\""⟩⟩]⟩

end AIService


namespace AIService

/-! ### Helper lemmas -/

theorem mk_data (s : String) : String.mk s.data = s := by
  cases s
  rfl

theorem jsIncludes_iff {hay needle : List Char} :
    jsIncludes hay needle = true ↔ needle <:+: hay := by
  induction hay with
  | nil => simp [jsIncludes]
  | cons c rest ih => simp [jsIncludes, ih, List.infix_cons_iff]

theorem requiresAdminPrivileges_iff {command : String} :
    requiresAdminPrivileges command = true ↔
      ∃ adminCmd ∈ ADMIN_COMMANDS, lcList adminCmd.data <:+: lcList command.data := by
  simp [requiresAdminPrivileges, List.any_eq_true, jsIncludes_iff]

theorem countRedirAux_eq (segment : List Char) : ∀ prev : Option Char,
    countRedirAux prev segment =
      (((prev :: segment.map some).zip segment).filter
        (fun p => p.2 == '>' && p.1 != some '>')).length := by
  induction segment with
  | nil => intro prev; simp [countRedirAux]
  | cons c rest ih =>
    intro prev
    have hcond : ((fun (p : Option Char × Char) => p.2 == '>' && p.1 != some '>') (prev, c) = true)
        ↔ (c = '>' ∧ prev ≠ some '>') := by
      simp
    simp only [countRedirAux, List.map_cons, List.zip_cons_cons, List.filter_cons]
    by_cases h : c = '>' ∧ prev ≠ some '>'
    · rw [if_pos h, ih (some c), if_pos (hcond.mpr h)]
      simp [Nat.add_comm]
    · rw [if_neg h, ih (some c), if_neg (fun hx => h (hcond.mp hx))]
      simp

theorem countRedirections_eq_spec (segment : List Char) :
    countRedirections segment = specRedirCount segment :=
  countRedirAux_eq segment none

theorem attempt_nonTimeout {o : FetchOutcome} (h : nonTimeoutFailure o) :
    attemptResult o = .error (failureName o, failureMessage o) ∧
      failureName o ≠ "AbortError" := by
  cases o with
  | resp status text json =>
    refine ⟨?_, by simp [failureName]⟩
    simp only [nonTimeoutFailure] at h
    simp [attemptResult, failureName, failureMessage, if_neg h]
  | reject name message =>
    exact ⟨rfl, h⟩

theorem attempt_timeout {o : FetchOutcome} (h : timesOut o) :
    attemptResult o = .error ("AbortError", failureMessage o) := by
  cases o with
  | resp status text json => exact h.elim
  | reject name message =>
    simp only [timesOut] at h
    simp [attemptResult, failureMessage, h]

theorem finishCommand_ok {l : List Char} {r : String}
    (h : finishCommand l = .ok r) (hr : r ≠ "") : startsAlnum r = true := by
  unfold finishCommand at h
  cases l with
  | nil =>
    simp only [List.head?] at h
    injection h with h
    exact absurd h.symm hr
  | cons c t =>
    simp only [List.head?] at h
    split at h
    · exact absurd h (by simp)
    · rename_i halnum
      injection h with h
      subst h
      simpa [startsAlnum] using halnum

/-! ### C1 -/

/-- C1 counterexample: on the completion
`{"choices":[{"message":{"content":"dir /a /a\ndir /a /a"}}]}` the
pipeline returns `dir /a /a`, not `dir /a`: the normalizer
(`cleanCommand`) is never invoked, so the duplicated flag survives. -/
theorem C1_counterexample :
    (generateCommand "list all files" dirRepeatOutcome).2 = .ok "dir /a /a" ∧
    ("dir /a /a" : String) ≠ "dir /a" := by decide

/-- C1 (amended): for every invocation whose remote call returns the
completion above, the pipeline applies extraction and repetition
collapse (`validateResponse`) and then validation (`validateCommand`)
— normalization is not applied — and returns exactly `dir /a /a` after
one network attempt. -/
theorem C1_pipeline (userInput : String) (h : jsTrimList userInput.data ≠ []) :
    generateCommand userInput dirRepeatOutcome = (1, .ok "dir /a /a") := by
  unfold generateCommand
  rw [if_neg h]
  decide

/-- C1 witness: the pipeline at a concrete user input. -/
theorem C1_pipeline_witness :
    generateCommand "list all files" dirRepeatOutcome = (1, .ok "dir /a /a") :=
  C1_pipeline "list all files" (by decide)

/-! ### C3 -/

/-- C3 counterexample: `generateCommand` can return a command starting
with a non-alphanumeric character (here a double quote) without failing
with `INVALID_COMMAND`, because `cleanCommand` is never invoked on the
pipeline path. -/
theorem C3_counterexample :
    (generateCommand "greet" (fun _ => FetchOutcome.resp 200 "" quotedHelloCompletion)).2 =
      .ok "\"hello\"" ∧
    startsAlnum "\"hello\"" = false := by decide

/-- C3 (amended): the guard lives in `cleanCommand` alone: every
nonempty string `cleanCommand` returns starts with an alphanumeric
character (a result starting otherwise is rejected with
`INVALID_COMMAND`); `generateCommand` does not run this check. -/
theorem C3_clean_guard (command result : String)
    (h : cleanCommand command = .ok result) (hr : result ≠ "") :
    startsAlnum result = true := by
  unfold cleanCommand at h
  exact finishCommand_ok h hr

/-- C3 witness: `cleanCommand` at a concrete input. -/
theorem C3_clean_guard_witness :
    cleanCommand "dir /a" = .ok "dir /a" ∧ startsAlnum "dir /a" = true := by
  have h : cleanCommand "dir /a" = .ok "dir /a" := by
    simp [cleanCommand, urlExtract, tryUrlAt, flagMatches, fixSlashes, restoreUrls,
      jsReplaceFirst, firstIndexOf, dollarSub, finishCommand, splitOnSep,
      knownCommandParams, lcList, jsTrimList, schemeBefore, isAsciiLetter,
      isAsciiAlnum, jsIsSpace, joinSep]
  exact ⟨h, C3_clean_guard "dir /a" "dir /a" h (by decide)⟩

/-! ### C4 -/

/-- C4: three non-timeout failures make exactly 3 attempts with backoff
delays 1000ms and 2000ms and raise `MAX_RETRIES_EXCEEDED` wrapping the
last error's message; a timeout on any attempt raises `TIMEOUT` there
with no further attempts. -/
theorem C4_retry_policy :
    ∀ outcomes : Nat → FetchOutcome,
      (nonTimeoutFailure (outcomes 1) → nonTimeoutFailure (outcomes 2) →
        nonTimeoutFailure (outcomes 3) →
        fetchWithRetry outcomes =
          (3, [1000, 2000],
            .error ⟨"Failed after 3 attempts: " ++ failureMessage (outcomes 3),
              "MAX_RETRIES_EXCEEDED"⟩)) ∧
      (timesOut (outcomes 1) →
        fetchWithRetry outcomes = (1, [], .error ⟨"Request timed out", "TIMEOUT"⟩)) ∧
      (nonTimeoutFailure (outcomes 1) → timesOut (outcomes 2) →
        fetchWithRetry outcomes = (2, [1000], .error ⟨"Request timed out", "TIMEOUT"⟩)) ∧
      (nonTimeoutFailure (outcomes 1) → nonTimeoutFailure (outcomes 2) →
        timesOut (outcomes 3) →
        fetchWithRetry outcomes =
          (3, [1000, 2000], .error ⟨"Request timed out", "TIMEOUT"⟩)) := by
  intro outcomes
  refine ⟨?_, ?_, ?_, ?_⟩
  · intro h1 h2 h3
    obtain ⟨e1, n1⟩ := attempt_nonTimeout h1
    obtain ⟨e2, n2⟩ := attempt_nonTimeout h2
    obtain ⟨e3, n3⟩ := attempt_nonTimeout h3
    simp [fetchWithRetry, retryGo, e1, e2, e3, n1, n2, n3, RETRY_DELAY]
  · intro h1
    have e1 := attempt_timeout h1
    simp [fetchWithRetry, retryGo, e1]
  · intro h1 h2
    obtain ⟨e1, n1⟩ := attempt_nonTimeout h1
    have e2 := attempt_timeout h2
    simp [fetchWithRetry, retryGo, e1, e2, n1, RETRY_DELAY]
  · intro h1 h2 h3
    obtain ⟨e1, n1⟩ := attempt_nonTimeout h1
    obtain ⟨e2, n2⟩ := attempt_nonTimeout h2
    have e3 := attempt_timeout h3
    simp [fetchWithRetry, retryGo, e1, e2, e3, n1, n2, RETRY_DELAY]

/-! ### C5 -/

/-- C5 counterexample: the collapser trims, so a string with edge
whitespace is not returned unchanged; and collapsing twice can differ
from collapsing once (`aaaa` collapses to `aa`, which collapses again
to `a`). -/
theorem C5_counterexample :
    (removeCommandRepetitions " a" = "a" ∧ (" a" : String) ≠ "a") ∧
    removeCommandRepetitions (removeCommandRepetitions "aaaa") ≠
      removeCommandRepetitions "aaaa" := by decide

/-- C5 (amended): on already-trimmed input the collapser returns the
first half of an exact doubling and returns anything else unchanged;
other inputs come back trimmed, and the collapse is not idempotent on
iterated doublings. -/
theorem C5_collapser :
    (∀ half : List Char, jsTrimList (half ++ half) = half ++ half →
      removeCommandRepetitions (String.mk (half ++ half)) = String.mk half) ∧
    (∀ s : String, jsTrimList s.data = s.data →
      (∀ half : List Char, s.data ≠ half ++ half) →
      removeCommandRepetitions s = s) := by
  constructor
  · intro half htrim
    unfold removeCommandRepetitions
    have hd : (String.mk (half ++ half)).data = half ++ half := rfl
    rw [hd, htrim]
    have hlen : (half ++ half).length = half.length + half.length := by simp
    rw [if_neg (by simp [hlen]; omega)]
    have hhalf : (half ++ half).length / 2 = half.length := by
      simp only [hlen]; omega
    show (if (half ++ half).take ((half ++ half).length / 2) =
          (half ++ half).drop ((half ++ half).length / 2)
        then String.mk ((half ++ half).take ((half ++ half).length / 2))
        else String.mk (half ++ half)) = String.mk half
    rw [hhalf, List.take_left, List.drop_left, if_pos rfl]
  · intro s htrim hnd
    unfold removeCommandRepetitions
    rw [htrim]
    by_cases hpar : s.data.length % 2 ≠ 0
    · rw [if_pos hpar]
    · rw [if_neg hpar]
      have hne : s.data.take (s.data.length / 2) ≠ s.data.drop (s.data.length / 2) := by
        intro heq
        apply hnd (s.data.take (s.data.length / 2))
        calc s.data
            = s.data.take (s.data.length / 2) ++ s.data.drop (s.data.length / 2) :=
              (List.take_append_drop _ _).symm
          _ = s.data.take (s.data.length / 2) ++ s.data.take (s.data.length / 2) := by
              rw [heq]
      show (if s.data.take (s.data.length / 2) = s.data.drop (s.data.length / 2)
          then String.mk (s.data.take (s.data.length / 2))
          else String.mk s.data) = s
      rw [if_neg hne]

/-! ### C6 -/

/-- C6: the validator fails with `ADMIN_REQUIRED` exactly when the
command text contains some denylist entry as a case-insensitive
substring; in particular `net use Z: \\server\share` is rejected. -/
theorem C6_admin_check :
    (∀ command : String,
      (errorCode (validateCommand command) = some "ADMIN_REQUIRED" ↔
        ∃ adminCmd ∈ ADMIN_COMMANDS, lcList adminCmd.data <:+: lcList command.data)) ∧
    errorCode (validateCommand "net use Z: \\\\server\\share") = some "ADMIN_REQUIRED" := by
  refine ⟨?_, by decide⟩
  intro command
  by_cases hc : command = ""
  · subst hc
    decide
  · unfold validateCommand
    rw [if_neg hc]
    by_cases ha : requiresAdminPrivileges command = true
    · rw [if_pos ha]
      exact iff_of_true rfl (requiresAdminPrivileges_iff.mp ha)
    · rw [if_neg ha]
      have hrhs : ¬∃ adminCmd ∈ ADMIN_COMMANDS,
          lcList adminCmd.data <:+: lcList command.data :=
        fun hx => ha (requiresAdminPrivileges_iff.mpr hx)
      refine iff_of_false ?_ hrhs
      cases hr : (splitOnSep isSegSep command.data).any
          (fun segment => countRedirections segment > 1) with
      | true => simp [hr, errorCode]
      | false => simp [hr, errorCode]

/-! ### C7 -/

/-- C7: past the emptiness and admin checks, the validator splits on
`&`/`|` and rejects with `INVALID_REDIRECTION` exactly when some
segment has more than one `>` not immediately preceded by another `>`;
`dir > a.txt > b.txt` is rejected, `dir > a.txt && type a.txt`
accepted. -/
theorem C7_redirection_check :
    (∀ command : String, command ≠ "" → requiresAdminPrivileges command = false →
      (errorCode (validateCommand command) = some "INVALID_REDIRECTION" ↔
        ∃ segment ∈ splitOnSep isSegSep command.data, 1 < specRedirCount segment)) ∧
    errorCode (validateCommand "dir > a.txt > b.txt") = some "INVALID_REDIRECTION" ∧
    validateCommand "dir > a.txt && type a.txt" = .ok () := by
  refine ⟨?_, by decide, by decide⟩
  intro command hc ha
  unfold validateCommand
  rw [if_neg hc, if_neg (by simp [ha])]
  cases hr : (splitOnSep isSegSep command.data).any
      (fun segment => countRedirections segment > 1) with
  | true =>
    refine iff_of_true (by simp [hr, errorCode]) ?_
    obtain ⟨segment, hmem, hcount⟩ := List.any_eq_true.mp hr
    exact ⟨segment, hmem, by
      have := of_decide_eq_true hcount
      simpa [countRedirections_eq_spec] using this⟩
  | false =>
    refine iff_of_false (by simp [hr, errorCode]) ?_
    intro ⟨segment, hmem, hcount⟩
    have : (splitOnSep isSegSep command.data).any
        (fun segment => countRedirections segment > 1) = true :=
      List.any_eq_true.mpr ⟨segment, hmem, decide_eq_true (by
        simpa [countRedirections_eq_spec] using hcount)⟩
    simp [hr] at this

/-! ### C9 -/

/-- C9: empty or whitespace-only user input fails immediately with
`INVALID_INPUT` and performs zero network attempts. -/
theorem C9_empty_input (userInput : String) (outcomes : Nat → FetchOutcome)
    (h : jsTrimList userInput.data = []) :
    generateCommand userInput outcomes =
      (0, .error ⟨"User input is required", "INVALID_INPUT"⟩) := by
  unfold generateCommand
  rw [if_pos h]

/-- C9 witness: whitespace-only input at a concrete remote behaviour. -/
theorem C9_empty_input_witness :
    generateCommand "   " (fun _ => FetchOutcome.reject "TypeError" "boom") =
      (0, .error ⟨"User input is required", "INVALID_INPUT"⟩) :=
  C9_empty_input "   " (fun _ => FetchOutcome.reject "TypeError" "boom") (by decide)

end AIService

namespace AIService

theorem mem_dropWhile {α : Type} {p : α → Bool} {x : α} :
    ∀ {l : List α}, x ∈ l → p x = false → x ∈ l.dropWhile p := by
  intro l hx hpx
  induction l with
  | nil => cases hx
  | cons a t ih =>
    by_cases hpa : p a = true
    · rw [List.dropWhile_cons_of_pos hpa]
      rcases List.mem_cons.mp hx with rfl | hxt
      · simp [hpa] at hpx
      · exact ih hxt
    · rw [List.dropWhile_cons_of_neg hpa]
      exact hx

theorem mem_jsTrimList {x : Char} {l : List Char} (hx : x ∈ l)
    (hpx : jsIsSpace x = false) : x ∈ jsTrimList l := by
  unfold jsTrimList
  exact List.mem_reverse.mpr (mem_dropWhile (List.mem_reverse.mpr (mem_dropWhile hx hpx)) hpx)

theorem jsTrimList_subset {x : Char} {l : List Char} (hx : x ∈ jsTrimList l) : x ∈ l := by
  unfold jsTrimList at hx
  have h1 := List.mem_reverse.mp hx
  have h2 := List.dropWhile_subset _ h1
  have h3 := List.mem_reverse.mp h2
  exact List.dropWhile_subset _ h3

theorem jsTrimList_has_nonspace {l : List Char} (h : jsTrimList l ≠ []) :
    ∃ x ∈ jsTrimList l, jsIsSpace x = false := by
  unfold jsTrimList at h ⊢
  have hmd : ((l.dropWhile jsIsSpace).reverse.dropWhile jsIsSpace) ≠ [] := by
    intro h0
    rw [h0] at h
    exact h rfl
  refine ⟨((l.dropWhile jsIsSpace).reverse.dropWhile jsIsSpace).head hmd, ?_, ?_⟩
  · exact List.mem_reverse.mpr (List.head_mem hmd)
  · exact List.head_dropWhile_not jsIsSpace _ hmd

theorem splitLines_ne_nil (l : List Char) : splitLines l ≠ [] := by
  induction l using splitLines.induct with
  | case1 => simp [splitLines]
  | case2 rest ih => simp [splitLines]
  | case3 rest ih => simp [splitLines]
  | case4 c rest h1 h2 hmatch ih => exact absurd hmatch ih
  | case5 c rest h1 h2 hd tl hmatch ih =>
    rw [splitLines.eq_4 c rest h1 h2, hmatch]
    simp

theorem splitLines_no_newline {l : List Char} :
    ∀ line ∈ splitLines l, '\n' ∉ line := by
  induction l using splitLines.induct with
  | case1 =>
    intro line hl
    simp [splitLines] at hl
    simp [hl]
  | case2 rest ih =>
    intro line hl
    have : splitLines ('\x0d' :: '\n' :: rest) = [] :: splitLines rest := rfl
    rw [this] at hl
    rcases List.mem_cons.mp hl with rfl | hl2
    · simp
    · exact ih line hl2
  | case3 rest ih =>
    intro line hl
    have : splitLines ('\n' :: rest) = [] :: splitLines rest := rfl
    rw [this] at hl
    rcases List.mem_cons.mp hl with rfl | hl2
    · simp
    · exact ih line hl2
  | case4 c rest h1 h2 hmatch ih => exact absurd hmatch (splitLines_ne_nil rest)
  | case5 c rest h1 h2 hd tl hmatch ih =>
    intro line hl
    rw [splitLines.eq_4 c rest h1 h2, hmatch] at hl
    rcases List.mem_cons.mp hl with rfl | hltl
    · intro hcmem
      rcases List.mem_cons.mp hcmem with hceq | hchd
      · exact h2 hceq.symm
      · exact ih hd (by rw [hmatch]; exact List.mem_cons_self hd tl) hchd
    · exact ih line (by rw [hmatch]; exact List.mem_cons_of_mem hd hltl)

theorem splitLines_covers {c : Char} {l : List Char} (hc : c ∈ l)
    (hn : c ≠ '\n') (hr : c ≠ '\x0d') :
    ∃ line ∈ splitLines l, c ∈ line := by
  induction l using splitLines.induct with
  | case1 => cases hc
  | case2 rest ih =>
    rcases List.mem_cons.mp hc with rfl | hc2
    · exact absurd rfl hr
    · rcases List.mem_cons.mp hc2 with rfl | hc3
      · exact absurd rfl hn
      · obtain ⟨line, hml, hcl⟩ := ih hc3
        refine ⟨line, ?_, hcl⟩
        have : splitLines ('\x0d' :: '\n' :: rest) = [] :: splitLines rest := rfl
        rw [this]
        exact List.mem_cons_of_mem [] hml
  | case3 rest ih =>
    rcases List.mem_cons.mp hc with rfl | hc2
    · exact absurd rfl hn
    · obtain ⟨line, hml, hcl⟩ := ih hc2
      refine ⟨line, ?_, hcl⟩
      have : splitLines ('\n' :: rest) = [] :: splitLines rest := rfl
      rw [this]
      exact List.mem_cons_of_mem [] hml
  | case4 a rest h1 h2 hmatch ih => exact absurd hmatch (splitLines_ne_nil rest)
  | case5 a rest h1 h2 hd tl hmatch ih =>
    rcases List.mem_cons.mp hc with rfl | hc2
    · refine ⟨c :: hd, ?_, List.mem_cons_self c hd⟩
      rw [splitLines.eq_4 c rest h1 h2, hmatch]
      exact List.mem_cons_self _ _
    · obtain ⟨line, hml, hcl⟩ := ih hc2
      rw [hmatch] at hml
      rcases List.mem_cons.mp hml with rfl | hmtl
      · refine ⟨a :: line, ?_, List.mem_cons_of_mem a hcl⟩
        rw [splitLines.eq_4 a rest h1 h2, hmatch]
        exact List.mem_cons_self _ _
      · refine ⟨line, ?_, hcl⟩
        rw [splitLines.eq_4 a rest h1 h2, hmatch]
        exact List.mem_cons_of_mem _ hmtl

theorem validateResponse_find {content : List Char}
    (hx : ∃ x ∈ content, jsIsSpace x = false) :
    ∃ fl, ((splitLines content).map jsTrimList).find? (fun line => line.length > 0) = some fl := by
  obtain ⟨x, hxc, hxs⟩ := hx
  have hxn : x ≠ '\n' := by intro h; subst h; simp [jsIsSpace] at hxs
  have hxr : x ≠ '\x0d' := by intro h; subst h; simp [jsIsSpace, Char.ofNat] at hxs
  obtain ⟨line, hml, hxl⟩ := splitLines_covers hxc hxn hxr
  have hne : jsTrimList line ≠ [] := by
    intro h0
    have := mem_jsTrimList hxl hxs
    rw [h0] at this
    cases this
  have hsome : (((splitLines content).map jsTrimList).find?
      (fun line => line.length > 0)).isSome := by
    rw [List.find?_isSome]
    refine ⟨jsTrimList line, List.mem_map_of_mem jsTrimList hml, ?_⟩
    simpa [List.length_pos] using hne
  exact Option.isSome_iff_exists.mp hsome

theorem removeCommandRepetitions_props (s : String) (h : jsTrimList s.data ≠ []) :
    (removeCommandRepetitions s).data ≠ [] ∧
      (removeCommandRepetitions s).data ⊆ jsTrimList s.data := by
  unfold removeCommandRepetitions
  by_cases hpar : (jsTrimList s.data).length % 2 ≠ 0
  · rw [if_pos hpar]
    exact ⟨h, fun x hx => hx⟩
  · rw [if_neg hpar]
    by_cases heq : (jsTrimList s.data).take ((jsTrimList s.data).length / 2) =
        (jsTrimList s.data).drop ((jsTrimList s.data).length / 2)
    · show ((if (jsTrimList s.data).take ((jsTrimList s.data).length / 2) =
            (jsTrimList s.data).drop ((jsTrimList s.data).length / 2)
          then String.mk ((jsTrimList s.data).take ((jsTrimList s.data).length / 2))
          else String.mk (jsTrimList s.data)).data ≠ [] ∧ _)
      rw [if_pos heq]
      rw [Ne, not_not] at hpar
      constructor
      · have hlen : (jsTrimList s.data).length ≠ 0 := by
          intro h0
          exact h (List.length_eq_zero.mp h0)
        intro h0
        have h0l : (jsTrimList s.data).take ((jsTrimList s.data).length / 2) = [] := h0
        have hl2 := congrArg List.length h0l
        rw [List.length_take] at hl2
        simp only [List.length_nil, Nat.min_eq_zero_iff] at hl2
        omega
      · exact List.take_subset _ _
    · show ((if (jsTrimList s.data).take ((jsTrimList s.data).length / 2) =
            (jsTrimList s.data).drop ((jsTrimList s.data).length / 2)
          then String.mk ((jsTrimList s.data).take ((jsTrimList s.data).length / 2))
          else String.mk (jsTrimList s.data)).data ≠ [] ∧ _)
      rw [if_neg heq]
      exact ⟨h, fun x hx => hx⟩

theorem validateResponse_ok_of {data : OpenRouterResponse} {raw : String}
    (hfc : firstContent data = some raw) (htrim : jsTrimList raw.data ≠ []) :
    ∃ result : String, validateResponse data = .ok result ∧
      result.data ≠ [] ∧ '\n' ∉ result.data := by
  have hraw : raw ≠ "" := by
    intro h
    subst h
    exact htrim rfl
  obtain ⟨fl, hfl⟩ := validateResponse_find (jsTrimList_has_nonspace htrim)
  have hflm := List.mem_of_find?_eq_some hfl
  obtain ⟨line0, hl0, hfl0⟩ := List.mem_map.mp hflm
  have hflp := List.find?_some hfl
  have hfl_ne : fl ≠ [] := by
    have := of_decide_eq_true hflp
    intro h0
    rw [h0] at this
    simp at this
  subst hfl0
  obtain ⟨x, hxf, hxs⟩ := jsTrimList_has_nonspace (l := line0) hfl_ne
  have htf : jsTrimList (String.mk (jsTrimList line0)).data ≠ [] := by
    intro h0
    have hx2 := mem_jsTrimList (l := (String.mk (jsTrimList line0)).data) hxf hxs
    rw [h0] at hx2
    cases hx2
  obtain ⟨hne, hsub⟩ := removeCommandRepetitions_props (String.mk (jsTrimList line0)) htf
  refine ⟨removeCommandRepetitions (String.mk (jsTrimList line0)), ?_, hne, ?_⟩
  · simp only [validateResponse, hfc, hfl, if_neg hraw, if_neg htrim]
  · intro hnl
    have h1 := hsub hnl
    have h2 := jsTrimList_subset h1
    have h3 := jsTrimList_subset h2
    exact splitLines_no_newline line0 hl0 h3

/-! ### C10 -/

/-- C10 counterexample: a present but empty `content` (first choice
carries the empty string) makes the extractor raise `INVALID_RESPONSE`
even though the content path is not absent, because the truthiness
check treats the empty string as missing. -/
theorem C10_counterexample :
    validateResponse ⟨[⟨⟨""⟩⟩]⟩ =
      .error ⟨"Invalid or empty response from AI", "INVALID_RESPONSE"⟩ ∧
    firstContent ⟨[⟨⟨""⟩⟩]⟩ = some "" := by decide

/-- C10 (amended): the second `INVALID_RESPONSE` branch of the
extractor ("No valid command found") is unreachable on every input;
whenever the first choice's content is present and non-empty after
trimming the extractor succeeds with a non-empty result containing no
line feed; and `INVALID_RESPONSE` arises only when the content path is
absent or the content is the empty string. -/
theorem C10_extractor :
    (∀ data : OpenRouterResponse,
      validateResponse data ≠
        .error ⟨"No valid command found in AI response", "INVALID_RESPONSE"⟩) ∧
    (∀ (data : OpenRouterResponse) (raw : String), firstContent data = some raw →
      jsTrimList raw.data ≠ [] →
      ∃ result : String, validateResponse data = .ok result ∧
        result.data ≠ [] ∧ '\n' ∉ result.data) ∧
    (∀ (data : OpenRouterResponse) (msg : String),
      validateResponse data = .error ⟨msg, "INVALID_RESPONSE"⟩ →
      firstContent data = none ∨ firstContent data = some "") := by
  refine ⟨?_, ?_, ?_⟩
  · intro data habs
    cases hfc : firstContent data with
    | none => simp [validateResponse, hfc] at habs
    | some raw =>
      by_cases hraw : raw = ""
      · subst hraw
        simp [validateResponse, hfc] at habs
      · by_cases htrim : jsTrimList raw.data = []
        · simp [validateResponse, hfc, hraw, htrim] at habs
        · obtain ⟨result, hok, h1, h2⟩ := validateResponse_ok_of hfc htrim
          rw [hok] at habs
          cases habs
  · intro data raw hfc htrim
    exact validateResponse_ok_of hfc htrim
  · intro data msg h
    cases hfc : firstContent data with
    | none => exact Or.inl rfl
    | some raw =>
      by_cases hraw : raw = ""
      · subst hraw
        exact Or.inr rfl
      · by_cases htrim : jsTrimList raw.data = []
        · simp [validateResponse, hfc, hraw, htrim] at h
        · obtain ⟨result, hok, h1, h2⟩ := validateResponse_ok_of hfc htrim
          rw [hok] at h
          cases h

end AIService


namespace AIService

theorem tryUrlAt_none_of {l : List Char}
    (h1 : ¬ "http://".data <+: l) (h2 : ¬ "https://".data <+: l) :
    tryUrlAt l = none := by
  unfold tryUrlAt
  rw [if_neg (by simpa using h2), if_neg (by simpa using h1)]

theorem urlExtract_id : ∀ (l : List Char) (k : Nat),
    (¬ "http://".data <:+: l) → (¬ "https://".data <:+: l) →
    urlExtract l k = (l, []) := by
  intro l
  induction l with
  | nil => intro k h1 h2; simp [urlExtract]
  | cons c rest ih =>
    intro k h1 h2
    have hn : tryUrlAt (c :: rest) = none :=
      tryUrlAt_none_of (fun hp => h1 hp.isInfix) (fun hp => h2 hp.isInfix)
    rw [urlExtract, hn]
    rw [ih k (fun hi => h1 (List.infix_cons hi)) (fun hi => h2 (List.infix_cons hi))]

theorem flagMatches_cons (c : Char) (rest : List Char) :
    flagMatches (c :: rest) =
      if c = '/' || c = '-' then
        if rest.takeWhile isAsciiLetter = [] then flagMatches rest
        else (c :: rest.takeWhile isAsciiLetter) ::
          flagMatches (rest.drop (rest.takeWhile isAsciiLetter).length)
      else flagMatches rest := by
  rw [flagMatches]

theorem flagMatches_shape : ∀ (l : List Char), ∀ t ∈ flagMatches l,
    ∃ c ls, t = c :: ls ∧ ls ≠ [] ∧ ∀ x ∈ ls, isAsciiLetter x = true := by
  intro l
  induction l using flagMatches.induct with
  | case1 => intro t ht; simp [flagMatches] at ht
  | case2 c rest hc hletters hnil ih =>
    intro t ht
    rw [flagMatches_cons, if_pos hc, if_pos hnil] at ht
    exact ih t ht
  | case3 c rest hc hletters hne ih =>
    intro t ht
    rw [flagMatches_cons, if_pos hc, if_neg hne] at ht
    rcases List.mem_cons.mp ht with rfl | ht2
    · exact ⟨c, rest.takeWhile isAsciiLetter, rfl, hne, fun x hx => List.mem_takeWhile_imp hx⟩
    · exact ih t ht2
  | case4 c rest hc ih =>
    intro t ht
    rw [flagMatches_cons, if_neg hc] at ht
    exact ih t ht

theorem fixSlashes_cons (pre : List Char) (c : Char) (rest : List Char) :
    fixSlashes pre (c :: rest) =
      if c = '/' ∧ rest.head? = some '/' then
        if schemeBefore pre then c :: fixSlashes (c :: pre) rest
        else '\\' :: fixSlashes ('/' :: '/' :: pre) rest.tail
      else c :: fixSlashes (c :: pre) rest := by
  rw [fixSlashes]

theorem fixSlashes_id : ∀ (l : List Char), noDoubleSlash l = true →
    ∀ pre, fixSlashes pre l = l := by
  intro l
  induction l with
  | nil => intro h pre; simp [fixSlashes]
  | cons c rest ih =>
    intro h pre
    have hcond : ¬(c = '/' ∧ rest.head? = some '/') := by
      rintro ⟨rfl, hh⟩
      cases rest with
      | nil => simp at hh
      | cons b r =>
        simp only [List.head?, Option.some.injEq] at hh
        subst hh
        have : noDoubleSlash ('/' :: '/' :: r) =
            (!('/' == '/' && '/' == '/') && noDoubleSlash ('/' :: r)) := rfl
        rw [this] at h
        simp at h
    rw [fixSlashes_cons, if_neg hcond]
    have hrest : noDoubleSlash rest = true := by
      cases rest with
      | nil => rfl
      | cons b r =>
        have heq : noDoubleSlash (c :: b :: r) =
            (!(c == '/' && b == '/') && noDoubleSlash (b :: r)) := rfl
        rw [heq, Bool.and_eq_true] at h
        exact h.2
    rw [ih hrest (c :: pre)]

theorem noDoubleSlash_space_cons {z : List Char} (hz : noDoubleSlash z = true) :
    noDoubleSlash (' ' :: z) = true := by
  cases z with
  | nil => rfl
  | cons b r =>
    show (!(' ' == '/' && b == '/') && noDoubleSlash (b :: r)) = true
    simp [hz]

theorem noDoubleSlash_append_sep : ∀ (a z : List Char),
    noDoubleSlash a = true → noDoubleSlash z = true →
    noDoubleSlash (a ++ ' ' :: z) = true := by
  intro a
  induction a with
  | nil => intro z ha hz; exact noDoubleSlash_space_cons hz
  | cons x a2 ih =>
    intro z ha hz
    cases a2 with
    | nil =>
      show (!(x == '/' && ' ' == '/') && noDoubleSlash (' ' :: z)) = true
      simp [noDoubleSlash_space_cons hz]
    | cons y a3 =>
      have heq : noDoubleSlash (x :: y :: a3) =
          (!(x == '/' && y == '/') && noDoubleSlash (y :: a3)) := rfl
      rw [heq, Bool.and_eq_true] at ha
      obtain ⟨hpair, htail⟩ := ha
      show (!(x == '/' && y == '/') && noDoubleSlash ((y :: a3) ++ ' ' :: z)) = true
      rw [Bool.and_eq_true]
      exact ⟨hpair, ih z htail hz⟩

theorem toLower_ne_slash {c : Char} (h : isAsciiLetter c = true) :
    Char.toLower c ≠ '/' := by
  show (let n := c.toNat; if n ≥ 65 ∧ n ≤ 90 then Char.ofNat (n + 32) else c) ≠ '/'
  simp only []
  split
  · rename_i hn
    obtain ⟨hn1, hn2⟩ := hn
    interval_cases hh : (Char.toNat c) <;> decide
  · intro heq
    subst heq
    simp [isAsciiLetter] at h

theorem noDoubleSlash_cons_letters {c : Char} : ∀ {ls : List Char},
    (∀ x ∈ ls, x ≠ '/') → noDoubleSlash (c :: ls) = true := by
  intro ls
  induction ls generalizing c with
  | nil => intro _; rfl
  | cons b r ih =>
    intro hl
    show (!(c == '/' && b == '/') && noDoubleSlash (b :: r)) = true
    rw [Bool.and_eq_true]
    constructor
    · have hb : b ≠ '/' := hl b (List.mem_cons_self b r)
      simp [hb]
    · exact ih (fun x hx => hl x (List.mem_cons_of_mem b hx))

theorem noDoubleSlash_joinSep :
    ∀ params : List (List Char),
      (∀ t ∈ params, ∃ c ls, t = c :: ls ∧ ls ≠ [] ∧ (∀ x ∈ ls, x ≠ '/')) →
      noDoubleSlash (joinSep [' '] params) = true := by
  intro params
  induction params with
  | nil => intro _; rfl
  | cons t rest ih =>
    intro h
    cases rest with
    | nil =>
      obtain ⟨c, ls, rfl, hne, hls⟩ := h t (List.mem_cons_self _ _)
      exact noDoubleSlash_cons_letters hls
    | cons t2 r2 =>
      obtain ⟨c, ls, hteq, hne, hls⟩ := h t (List.mem_cons_self _ _)
      have hrest := ih (fun u hu => h u (List.mem_cons_of_mem _ hu))
      have hj : joinSep [' '] (t :: t2 :: r2) = t ++ ' ' :: joinSep [' '] (t2 :: r2) := by
        show t ++ [' '] ++ joinSep [' '] (t2 :: r2) = t ++ ' ' :: joinSep [' '] (t2 :: r2)
        simp
      rw [hj]
      apply noDoubleSlash_append_sep
      · subst hteq
        exact noDoubleSlash_cons_letters hls
      · exact hrest

theorem firstSeenDedup_mem : ∀ (l acc : List (List Char)) (x : List Char),
    x ∈ l.foldl (fun acc y => if acc.contains y then acc else acc ++ [y]) acc →
    x ∈ acc ∨ x ∈ l := by
  intro l
  induction l with
  | nil => intro acc x hx; exact Or.inl hx
  | cons y rest ih =>
    intro acc x hx
    simp only [List.foldl_cons] at hx
    by_cases hy : acc.contains y = true
    · rw [if_pos hy] at hx
      rcases ih acc x hx with h | h
      · exact Or.inl h
      · exact Or.inr (List.mem_cons_of_mem _ h)
    · rw [if_neg hy] at hx
      rcases ih (acc ++ [y]) x hx with h | h
      · rcases List.mem_append.mp h with h2 | h2
        · exact Or.inl h2
        · rw [List.mem_singleton] at h2
          subst h2
          exact Or.inr (List.mem_cons_self _ _)
      · exact Or.inr (List.mem_cons_of_mem _ h)

theorem collectParams_go (valid : List (List Char)) :
    ∀ (ms acc : List (List Char)),
      ms.foldl (fun acc param =>
        if valid.contains (lcList param) ∧ ¬ acc.contains (lcList param)
        then acc ++ [lcList param] else acc) acc =
      ((ms.map lcList).filter (fun lp => valid.contains lp)).foldl
        (fun acc x => if acc.contains x then acc else acc ++ [x]) acc := by
  intro ms
  induction ms with
  | nil => intro acc; rfl
  | cons m rest ih =>
    intro acc
    simp only [List.foldl_cons, List.map_cons, List.filter_cons]
    by_cases hv : valid.contains (lcList m) = true
    · rw [if_pos hv]
      simp only [List.foldl_cons]
      by_cases hacc : acc.contains (lcList m) = true
      · rw [if_neg (fun hx => hx.2 hacc), if_pos hacc]
        exact ih acc
      · rw [if_pos ⟨hv, hacc⟩, if_neg hacc]
        exact ih (acc ++ [lcList m])
    · rw [if_neg (fun hx => hv hx.1), if_neg hv]
      exact ih acc

theorem collectParams_eq (valid ms : List (List Char)) :
    ms.foldl (fun acc param =>
      if valid.contains (lcList param) ∧ ¬ acc.contains (lcList param)
      then acc ++ [lcList param] else acc) [] =
    firstSeenDedup ((ms.map lcList).filter (fun lp => valid.contains lp)) :=
  collectParams_go valid ms []

theorem restoreUrls_nil (s : List Char) : restoreUrls s [] = s := rfl

theorem knownCommandParams_fw {fw : List Char} {vp : List (List Char)}
    (hk : knownCommandParams fw = some vp) :
    ∃ c ls, fw = c :: ls ∧ isAsciiAlnum c = true ∧ noDoubleSlash fw = true := by
  unfold knownCommandParams at hk
  split at hk
  · rename_i heq
    subst heq
    exact ⟨'i', "pconfig".data, by decide, by decide, by decide⟩
  · split at hk
    · rename_i heq
      subst heq
      exact ⟨'d', "ir".data, by decide, by decide, by decide⟩
    · split at hk
      · rename_i heq
        subst heq
        exact ⟨'n', "etstat".data, by decide, by decide, by decide⟩
      · split at hk
        · rename_i heq
          subst heq
          exact ⟨'p', "ing".data, by decide, by decide, by decide⟩
        · split at hk
          · rename_i heq
            subst heq
            exact ⟨'c', "url".data, by decide, by decide, by decide⟩
          · cases hk

theorem finishCommand_alnum {c : Char} {z : List Char} (h : isAsciiAlnum c = true) :
    finishCommand (c :: z) = .ok (String.mk (c :: z)) := by
  unfold finishCommand
  simp [h]

/-! ### C8 -/

/-- C8 counterexample: the first word is found by splitting on the
space character only, so `dir\t/a` (tab-separated) bypasses the known
command table; and with no surviving flag the reconstruction
`firstWord + ' ' + join` leaves a trailing space (`dir foo` becomes
`"dir "`). -/
theorem C8_counterexample :
    cleanCommand "dir\t/a" = .ok "dir\t/a" ∧ ("dir\t/a" : String) ≠ "dir /a" ∧
    cleanCommand "dir foo" = .ok "dir " ∧ ("dir " : String) ≠ "dir" := by
  refine ⟨?_, by decide, ?_, by decide⟩
  · simp [cleanCommand, urlExtract, tryUrlAt, flagMatches, fixSlashes, restoreUrls,
      jsReplaceFirst, firstIndexOf, dollarSub, finishCommand, splitOnSep,
      knownCommandParams, lcList, jsTrimList, schemeBefore, isAsciiLetter,
      isAsciiAlnum, jsIsSpace, joinSep]
  · simp [cleanCommand, urlExtract, tryUrlAt, flagMatches, fixSlashes, restoreUrls,
      jsReplaceFirst, firstIndexOf, dollarSub, finishCommand, splitOnSep,
      knownCommandParams, lcList, jsTrimList, schemeBefore, isAsciiLetter,
      isAsciiAlnum, jsIsSpace, joinSep]

/-- C8 (amended): for every URL-free input whose first space-delimited
word (lower-cased) is a known command, the normalizer output is that
lower-cased word, a space, and the allow-listed flags of the input
(lower-cased), each exactly once in first-seen order, unrecognized
flags and non-flag arguments dropped (with a trailing space when no
flag survives). -/
theorem C8_known_normalization (command : String) (validParams : List (List Char))
    (h1 : ¬ "http://".data <:+: jsTrimList command.data)
    (h2 : ¬ "https://".data <:+: jsTrimList command.data)
    (hk : knownCommandParams
      (lcList ((splitOnSep (fun c => c == ' ') (jsTrimList command.data)).headD [])) =
        some validParams) :
    cleanCommand command = .ok (String.mk
      (lcList ((splitOnSep (fun c => c == ' ') (jsTrimList command.data)).headD []) ++
        ' ' :: joinSep [' ']
          (firstSeenDedup (((flagMatches (jsTrimList command.data)).map lcList).filter
            (fun lp => validParams.contains lp))))) := by
  obtain ⟨c0, ls0, hfw, hc0, hnds⟩ := knownCommandParams_fw hk
  have htok : ∀ tok ∈ firstSeenDedup
      (((flagMatches (jsTrimList command.data)).map lcList).filter
        (fun lp => validParams.contains lp)),
      ∃ c ls, tok = c :: ls ∧ ls ≠ [] ∧ (∀ x ∈ ls, x ≠ '/') := by
    intro tok htk
    rcases firstSeenDedup_mem _ [] tok htk with h0 | h0
    · cases h0
    · have h0m := List.mem_of_mem_filter h0
      obtain ⟨orig, horig, horigeq⟩ := List.mem_map.mp h0m
      obtain ⟨c, ls, hoeq, hne, hlet⟩ := flagMatches_shape _ orig horig
      subst hoeq
      refine ⟨Char.toLower c, lcList ls, ?_, ?_, ?_⟩
      · rw [← horigeq]
        rfl
      · simp [lcList, hne]
      · intro x hx
        obtain ⟨y, hy, hyeq⟩ := List.mem_map.mp hx
        subst hyeq
        exact toLower_ne_slash (hlet y hy)
  have hJ : noDoubleSlash (joinSep [' ']
      (firstSeenDedup (((flagMatches (jsTrimList command.data)).map lcList).filter
        (fun lp => validParams.contains lp)))) = true :=
    noDoubleSlash_joinSep _ htok
  have hall : noDoubleSlash
      (lcList ((splitOnSep (fun c => c == ' ') (jsTrimList command.data)).headD []) ++
        ' ' :: joinSep [' ']
          (firstSeenDedup (((flagMatches (jsTrimList command.data)).map lcList).filter
            (fun lp => validParams.contains lp)))) = true :=
    noDoubleSlash_append_sep _ _ hnds hJ
  unfold cleanCommand
  simp only [urlExtract_id (jsTrimList command.data) 0 h1 h2, hk, restoreUrls_nil,
    collectParams_eq]
  rw [fixSlashes_id _ hall []]
  rw [hfw, List.cons_append, finishCommand_alnum hc0]

/-- C8 witness: the cited example input normalizes to `dir /a /s`. -/
theorem C8_witness :
    cleanCommand "dir /a /a /s /unknownflag" = .ok "dir /a /s" := by
  have h := C8_known_normalization "dir /a /a /s /unknownflag"
    (["/a", "/b", "/s", "/w", "/p", "/o", "/ad"].map String.data)
    (by decide) (by decide) (by decide)
  rw [h]
  simp [flagMatches, firstSeenDedup, joinSep, lcList, jsTrimList, jsIsSpace,
    splitOnSep, isAsciiLetter]

end AIService



namespace AIService

theorem urlPlaceholder_zero : urlPlaceholder 0 = "__URL0__".data := by decide

theorem takeWhile_all {p : Char → Bool} : ∀ {l : List Char},
    (∀ x ∈ l, p x = true) → l.takeWhile p = l := by
  intro l
  induction l with
  | nil => intro _; rfl
  | cons a t ih =>
    intro h
    rw [List.takeWhile_cons_of_pos (h a (List.mem_cons_self a t))]
    rw [ih (fun x hx => h x (List.mem_cons_of_mem a hx))]

theorem jsTrimList_id {l : List Char}
    (hh : ∀ c, l.head? = some c → jsIsSpace c = false)
    (hl : ∀ c, l.getLast? = some c → jsIsSpace c = false) : jsTrimList l = l := by
  unfold jsTrimList
  have h1 : l.dropWhile jsIsSpace = l := by
    cases l with
    | nil => rfl
    | cons a t =>
      rw [List.dropWhile_cons_of_neg (by simp [hh a rfl])]
  rw [h1]
  have h2 : l.reverse.dropWhile jsIsSpace = l.reverse := by
    cases hrev : l.reverse with
    | nil => rfl
    | cons a t =>
      have hga : l.getLast? = some a := by
        rw [← List.head?_reverse, hrev]
        rfl
      rw [List.dropWhile_cons_of_neg (by simp [hl a hga])]
  rw [h2, List.reverse_reverse]

theorem tryUrlAt_cons_not_h {c : Char} {l : List Char} (hc : c ≠ 'h') :
    tryUrlAt (c :: l) = none := by
  apply tryUrlAt_none_of
  · intro hp
    obtain ⟨tl, htl⟩ := hp
    injection htl with h1 h2
    exact hc h1.symm
  · intro hp
    obtain ⟨tl, htl⟩ := hp
    injection htl with h1 h2
    exact hc h1.symm

theorem urlExtract_cons_none {c : Char} {l : List Char} {k : Nat}
    (h : tryUrlAt (c :: l) = none) :
    urlExtract (c :: l) k = (c :: (urlExtract l k).1, (urlExtract l k).2) := by
  rw [urlExtract, h]

theorem urlExtract_cons_some {c : Char} {l url remaining : List Char} {k : Nat}
    (h : tryUrlAt (c :: l) = some (url, remaining)) :
    urlExtract (c :: l) k =
      (urlPlaceholder k ++ (urlExtract remaining (k + 1)).1,
        url :: (urlExtract remaining (k + 1)).2) := by
  rw [urlExtract, h]

theorem dollarSub_cons_ne {m bef aft : List Char} {c : Char} {r : List Char}
    (hc : c ≠ '$') :
    dollarSub m bef aft (c :: r) = c :: dollarSub m bef aft r := by
  rw [dollarSub.eq_def]
  simp only []
  rw [if_neg hc]

theorem dollarSub_id {m bef aft : List Char} : ∀ {rep : List Char},
    (∀ c ∈ rep, c ≠ '$') → dollarSub m bef aft rep = rep := by
  intro rep
  induction rep with
  | nil => intro _; rfl
  | cons c r ih =>
    intro h
    have hc : c ≠ '$' := h c (List.mem_cons_self c r)
    rw [dollarSub_cons_ne hc, ih (fun x hx => h x (List.mem_cons_of_mem c hx))]

theorem noDoubleSlash_of_no_slash {l : List Char} (h : ∀ x ∈ l, x ≠ '/') :
    noDoubleSlash l = true := by
  cases l with
  | nil => rfl
  | cons c t =>
    exact noDoubleSlash_cons_letters (fun x hx => h x (List.mem_cons_of_mem c hx))

theorem fixSlashes_append_no_slash : ∀ (a : List Char), (∀ x ∈ a, x ≠ '/') →
    ∀ (pre z : List Char),
      fixSlashes pre (a ++ z) = a ++ fixSlashes (a.reverse ++ pre) z := by
  intro a
  induction a with
  | nil => intro _ pre z; simp
  | cons x a2 ih =>
    intro h pre z
    have hx : x ≠ '/' := h x (List.mem_cons_self x a2)
    rw [List.cons_append, fixSlashes_cons, if_neg (fun hc => hx hc.1)]
    rw [ih (fun y hy => h y (List.mem_cons_of_mem x hy)) (x :: pre) z]
    simp [List.append_assoc]

/-! ### C2 -/

/-- C2 counterexample: for a known command the reconstruction keeps
only allow-listed flags, so the URL placeholder is dropped and the URL
does not reappear at all: `curl -s http://example.com` normalizes to
`curl -s`. -/
theorem C2_counterexample :
    cleanCommand "curl -s http://example.com" = .ok "curl -s" ∧
    ¬ ("http://example.com".data <:+: ("curl -s" : String).data) := by
  refine ⟨?_, by decide⟩
  simp [cleanCommand, urlExtract, tryUrlAt, flagMatches, fixSlashes, restoreUrls,
    jsReplaceFirst, firstIndexOf, dollarSub, finishCommand, splitOnSep,
    knownCommandParams, lcList, jsTrimList, urlPlaceholder_zero, schemeBefore,
    isAsciiLetter, isAsciiAlnum, jsIsSpace, joinSep]

/-- C2 (amended): URL preservation holds only in restricted cases: for
an unknown base command with a single `http://` URL argument whose
remainder is nonempty and free of whitespace, `/` and `$`, the
normalizer returns its input unchanged, so the URL reappears
byte-for-byte (it is an infix of the output).  The known-command path
drops URLs, interior `//` in a URL is rewritten to a backslash after
restoration, and `$`-sequences are mangled by the replacement. -/
theorem C2_url_preserved (rest : List Char) (hne : rest ≠ [])
    (hok : ∀ c ∈ rest, jsIsSpace c = false ∧ c ≠ '/' ∧ c ≠ '$') :
    cleanCommand (String.mk ("wget http://".data ++ rest)) =
      .ok (String.mk ("wget http://".data ++ rest)) ∧
    ("http://".data ++ rest) <:+: ("wget http://".data ++ rest) := by
  have hha : ∀ c, ("wget http://".data ++ rest).head? = some c → jsIsSpace c = false := by
    intro c hc
    have e : ("wget http://".data ++ rest).head? = some 'w' := rfl
    rw [e, Option.some.injEq] at hc
    subst hc
    decide
  have hla : ∀ c, ("wget http://".data ++ rest).getLast? = some c → jsIsSpace c = false := by
    intro c hc
    rw [List.getLast?_append] at hc
    cases hr : rest.getLast? with
    | none => exact absurd (List.getLast?_eq_none_iff.mp hr) hne
    | some a =>
      rw [hr] at hc
      simp only [Option.or_some, Option.some.injEq] at hc
      subst hc
      exact (hok a (List.mem_of_getLast?_eq_some hr)).1
  have ht : jsTrimList ("wget http://".data ++ rest) = "wget http://".data ++ rest :=
    jsTrimList_id hha hla
  have hrest_nonspace : ∀ c ∈ rest, (fun c => !jsIsSpace c) c = true := by
    intro c hc
    simp [(hok c hc).1]
  have htry : tryUrlAt ('h' :: 't' :: 't' :: 'p' :: ':' :: '/' :: '/' :: rest) =
      some ("http://".data ++ rest, []) := by
    unfold tryUrlAt
    rw [if_neg (by simp [List.isPrefixOf]), if_pos (by simp [List.isPrefixOf])]
    have e1 : ('h' :: 't' :: 't' :: 'p' :: ':' :: '/' :: '/' :: rest).drop 7 = rest := rfl
    rw [e1, takeWhile_all hrest_nonspace, if_neg hne]
    simp [List.drop_length]
  have hext : urlExtract ("wget http://".data ++ rest) 0 =
      ("wget __URL0__".data, ["http://".data ++ rest]) := by
    have e0 : "wget http://".data ++ rest =
        'w' :: 'g' :: 'e' :: 't' :: ' ' :: ('h' :: 't' :: 't' :: 'p' :: ':' :: '/' :: '/' :: rest) := rfl
    rw [e0]
    rw [urlExtract_cons_none (tryUrlAt_cons_not_h (by decide))]
    rw [urlExtract_cons_none (tryUrlAt_cons_not_h (by decide))]
    rw [urlExtract_cons_none (tryUrlAt_cons_not_h (by decide))]
    rw [urlExtract_cons_none (tryUrlAt_cons_not_h (by decide))]
    rw [urlExtract_cons_none (tryUrlAt_cons_not_h (by decide))]
    rw [urlExtract_cons_some htry]
    rw [show urlExtract [] 1 = ([], []) from by rw [urlExtract]]
    simp [urlPlaceholder_zero]
  have hnodollar : ∀ c ∈ "http://".data ++ rest, c ≠ '$' := by
    intro c hc
    rcases List.mem_append.mp hc with h | h
    · intro heq
      subst heq
      exact (by decide : ('$' : Char) ∉ "http://".data) h
    · exact (hok c h).2.2
  have hrestore : restoreUrls "wget __URL0__".data ["http://".data ++ rest] =
      "wget ".data ++ ("http://".data ++ rest) := by
    have e : restoreUrls "wget __URL0__".data ["http://".data ++ rest] =
        jsReplaceFirst "wget __URL0__".data (urlPlaceholder 0) ("http://".data ++ rest) := by
      with_unfolding_all rfl
    rw [e]
    unfold jsReplaceFirst
    rw [show firstIndexOf "wget __URL0__".data (urlPlaceholder 0) = some 5 from by decide]
    simp only [dollarSub_id hnodollar]
    simp [urlPlaceholder_zero]
  have hfix : fixSlashes [] ("wget ".data ++ ("http://".data ++ rest)) =
      "wget ".data ++ ("http://".data ++ rest) := by
    have e1 : "wget ".data ++ ("http://".data ++ rest) =
        "wget http:".data ++ ('/' :: '/' :: rest) := rfl
    rw [e1]
    rw [fixSlashes_append_no_slash "wget http:".data (by decide) [] ('/' :: '/' :: rest)]
    rw [fixSlashes_cons, if_pos ⟨rfl, rfl⟩, if_pos (by decide)]
    rw [fixSlashes_cons, if_neg ?hn2]
    case hn2 =>
      rintro ⟨h1, h2⟩
      cases rest with
      | nil => simp at h2
      | cons b r =>
        simp only [List.head?, Option.some.injEq] at h2
        exact (hok b (List.mem_cons_self b r)).2.1 h2
    rw [fixSlashes_id rest (noDoubleSlash_of_no_slash (fun x hx => (hok x hx).2.1))]
  refine ⟨?_, ⟨"wget ".data, [], by simp⟩⟩
  have final : finishCommand (fixSlashes []
      (restoreUrls "wget __URL0__".data ["http://".data ++ rest])) =
      Except.ok (String.mk ("wget http://".data ++ rest)) := by
    rw [hrestore, hfix]
    have e2 : "wget ".data ++ ("http://".data ++ rest) =
        'w' :: ("get http://".data ++ rest) := rfl
    rw [e2, finishCommand_alnum (by decide)]
    rfl
  have hdata : (String.mk ("wget http://".data ++ rest)).data =
      "wget http://".data ++ rest := rfl
  unfold cleanCommand
  simp only [hdata, ht, hext]
  with_unfolding_all (exact final)

/-- C2 witness: `wget http://example.com` is returned unchanged and the
URL reappears in the output. -/
theorem C2_witness :
    cleanCommand "wget http://example.com" = .ok "wget http://example.com" ∧
    ("http://example.com".data <:+: ("wget http://example.com" : String).data) := by
  have h := C2_url_preserved "example.com".data (by decide) (by decide)
  constructor
  · have e : String.mk ("wget http://".data ++ "example.com".data) =
        "wget http://example.com" := by decide
    rw [← e]
    exact h.1
  · have h2 := h.2
    have e1 : "http://".data ++ "example.com".data = "http://example.com".data := by decide
    have e2 : "wget http://".data ++ "example.com".data =
        ("wget http://example.com" : String).data := by decide
    rw [e1, e2] at h2
    exact h2

end AIService

